import Mathlib

/-
Verification of the decision-aggregation and position-sizing core of the
ai-hedge-fund repository.  The Python sources are shallowly embedded:
floats become exact rationals, dictionaries become association lists in
insertion order, and code that can raise returns Except or Option.
-/

/-- ASCII lowercase of one character, the behaviour of the Python lower
method on the ASCII producer names used by the repository. -/
def lowerChar (c : Char) : Char :=
  if 'A' ≤ c ∧ c ≤ 'Z' then Char.ofNat (c.toNat + 32) else c

/-- ASCII uppercase of one character, the behaviour of the Python upper
method on the ASCII signal strings used by the repository. -/
def upperChar (c : Char) : Char :=
  if 'a' ≤ c ∧ c ≤ 'z' then Char.ofNat (c.toNat - 32) else c

/-- Model of the Python str.lower method. -/
def pyLower (s : String) : String := String.mk (s.data.map lowerChar)

/-- Model of the Python str.upper method. -/
def pyUpper (s : String) : String := String.mk (s.data.map upperChar)

/-- Boolean prefix test on character lists. -/
def isPrefL : List Char → List Char → Bool
  | [], _ => true
  | _ :: _, [] => false
  | a :: as, b :: bs => a = b && isPrefL as bs

/-- Fuel-indexed worker for pyReplace; the fuel starts at the length of the
input so the recursion is structural and computable in the kernel. -/
def replaceGo (pat rep : List Char) : Nat → List Char → List Char
  | _, [] => []
  | 0, l => l
  | n + 1, c :: rest =>
    if isPrefL pat (c :: rest) && !pat.isEmpty then
      rep ++ replaceGo pat rep n (rest.drop (pat.length - 1))
    else
      c :: replaceGo pat rep n rest

/-- Model of the Python str.replace method: replace every non-overlapping
occurrence of pat in s by rep, scanning left to right. -/
def pyReplace (s pat rep : String) : String :=
  String.mk (replaceGo pat.data rep.data s.data.length s.data)

/-- A confidence value as it can appear in a signal dictionary: a number,
an arbitrary string, or the Python None value. -/
inductive Conf where
  | num (q : ℚ)
  | str (s : String)
  | pynone
  deriving DecidableEq

/-- One analyst signal entry: the signal string (empty when the key is
absent) and the confidence value. -/
structure SignalData where
  signal : String
  confidence : Conf
  deriving DecidableEq

/-- Value of a digit string read in base 10. -/
def digitsVal (l : List Char) : ℕ :=
  l.foldl (fun n c => 10 * n + (c.toNat - 48)) 0

/-- Parse an unsigned decimal literal, as the Python float constructor
accepts: digits, optionally a dot and more digits, at least one digit. -/
def parseUnsigned (cs : List Char) : Option ℚ :=
  let intPart := cs.takeWhile Char.isDigit
  let rest := cs.dropWhile Char.isDigit
  match rest with
  | [] => if intPart.isEmpty then none else some (digitsVal intPart)
  | '.' :: frac =>
    let fracPart := frac.takeWhile Char.isDigit
    if !(frac.dropWhile Char.isDigit).isEmpty then none
    else if intPart.isEmpty && fracPart.isEmpty then none
    else some ((digitsVal intPart : ℚ) + (digitsVal fracPart : ℚ) / (10 : ℚ) ^ fracPart.length)
  | _ => none

/-- Strip leading and trailing spaces from a character list. -/
def stripSpaces (l : List Char) : List Char :=
  ((l.dropWhile (fun c => c = ' ')).reverse.dropWhile (fun c => c = ' ')).reverse

/-- Model of the Python float constructor on strings: returns none where
the constructor raises ValueError. -/
def parseFloat (s : String) : Option ℚ :=
  match stripSpaces s.data with
  | '-' :: rest => (parseUnsigned rest).map (fun q => -q)
  | '+' :: rest => parseUnsigned rest
  | cs => parseUnsigned cs

/-- Model of the confidence parsing in calculate_signal_confidence
(portfolio_manager.py lines 147-152): float(...) wrapped in a handler for
ValueError and AttributeError.  A numeric value parses to itself; a string
parses via float, with a ValueError caught and turned into 0.0; the Python
None value makes float raise TypeError, which the handler does not catch,
so the whole computation raises: modelled as the error case. -/
def parseConf : Conf → Except Unit ℚ
  | .num q => .ok q
  | .str s => .ok ((parseFloat s).getD 0)
  | .pynone => .error ()

/-- The base weight table of calculate_signal_confidence
(portfolio_manager.py lines 111-117). -/
def baseWeights (n : String) : Option ℚ :=
  if n = "fundamentals" then some (24/100)
  else if n = "technical_analysis" then some (23/100)
  else if n = "valuation" then some (23/100)
  else if n = "warren_buffett" then some (15/100)
  else if n = "sentiment" then some (15/100)
  else none

/-- Producer-name normalization used in the total_weight sum
(portfolio_manager.py lines 126-128): lowercase, drop the _agent suffix,
map analyst to analysis.  Note: no space-to-underscore replacement here. -/
def normTW (k : String) : String :=
  pyReplace (pyReplace (pyLower k) "_agent" "") "analyst" "analysis"

/-- Producer-name normalization used for the per-signal weight lookup
(portfolio_manager.py lines 158-161): the same pipeline with a final
space-to-underscore replacement. -/
def normKey (k : String) : String :=
  pyReplace (normTW k) " " "_"

/-- The active_agents filter of calculate_signal_confidence
(portfolio_manager.py line 123): drop the risk management producer. -/
def activeAgents (signals : List (String × SignalData)) : List (String × SignalData) :=
  signals.filter (fun p => pyLower p.1 ≠ "risk_management_agent")

/-- The total_weight sum of calculate_signal_confidence
(portfolio_manager.py lines 126-128): sum of the base weights of the
present producers whose normalized name is in the table. -/
def totalWeight (agents : List (String × SignalData)) : ℚ :=
  (agents.filterMap (fun p => baseWeights (normTW p.1))).sum

/-- The adjusted weight lookup of calculate_signal_confidence
(portfolio_manager.py lines 130 and 162): the base weight divided by
total_weight when that is positive, the raw base weight otherwise, and 0
for names outside the table. -/
def weightFor (tw : ℚ) (n : String) : ℚ :=
  match baseWeights n with
  | some v => if 0 < tw then v / tw else v
  | none => 0

/-- The signal loop of calculate_signal_confidence (portfolio_manager.py
lines 139-173): returns the weighted bullish total, the weighted bearish
total and the count of active (non-neutral) signals, or an error when a
confidence value makes the parse raise. -/
def processSignals (w : String → ℚ) : List (String × SignalData) → Except Unit (ℚ × ℚ × ℕ)
  | [] => .ok (0, 0, 0)
  | (k, sd) :: rest =>
    match parseConf sd.confidence with
    | .error e => .error e
    | .ok c =>
      match processSignals w rest with
      | .error e => .error e
      | .ok (b, r, a) =>
        let dir := pyUpper sd.signal
        if dir ≠ "" ∧ dir ≠ "NEUTRAL" then
          if dir = "BULLISH" then .ok (b + c * w (normKey k), r, a + 1)
          else if dir = "BEARISH" then .ok (b, r + c * w (normKey k), a + 1)
          else .ok (b, r, a + 1)
        else .ok (b, r, a)

/-- The function calculate_signal_confidence of portfolio_manager.py
(lines 104-200): weighted aggregation of a signal bundle into a
confidence score and a dominant direction. -/
def calculate_signal_confidence (signals : List (String × SignalData)) :
    Except Unit (ℚ × String) :=
  let agents := activeAgents signals
  let tw := totalWeight agents
  match processSignals (weightFor tw) agents with
  | .error e => .error e
  | .ok (b, r, act) =>
    let avail := agents.length
    let (conf, dir) := if b < r then (r, "bearish") else (b, "bullish")
    let conf := if act < avail then conf * (act : ℚ) / (avail : ℚ) else conf
    .ok (conf, dir)

/-- Portfolio data read by the risk management agent: cash, optional
buying power, and the cost basis map. -/
structure RiskPortfolio where
  cash : ℚ
  buying_power : Option ℚ
  cost_basis : List (String × ℚ)
  deriving DecidableEq

/-- Dictionary get with default 0. -/
def lookupQ (m : List (String × ℚ)) (k : String) : ℚ :=
  ((m.find? (fun p => p.1 = k)).map Prod.snd).getD 0

/-- The total portfolio value of risk_management_agent (risk_manager.py
lines 41-43): cash plus the sum of the cost basis values. -/
def total_portfolio_value (p : RiskPortfolio) : ℚ :=
  p.cash + (p.cost_basis.map (fun kv => lookupQ p.cost_basis kv.1)).sum

/-- Truncation toward zero, the behaviour of the Python int constructor
on a number. -/
def truncQ (q : ℚ) : ℤ := if 0 ≤ q then ⌊q⌋ else -⌊-q⌋

/-- The per-ticker envelope computed by risk_management_agent
(risk_manager.py lines 39-61): the emitted remaining_position_limit,
current_price and max_shares fields, in that order. -/
def risk_envelope (p : RiskPortfolio) (ticker : String) (current_price : ℚ)
    (execute_trades : Bool) : ℚ × ℚ × ℤ :=
  let current_position_value := lookupQ p.cost_basis ticker
  let tpv := total_portfolio_value p
  let max_position :=
    if execute_trades then
      min (tpv * (20/100)) ((p.buying_power.getD p.cash) * (95/100))
    else tpv * (20/100)
  let remaining_position_limit := max_position - current_position_value
  let max_position_size := min remaining_position_limit p.cash
  (max_position_size, current_price,
    if 0 < current_price then truncQ (max_position_size / current_price) else 0)

/-- Size fraction for a new long position by confidence band, from the
trading rules stated in the decision prompt of generate_trading_decision
(portfolio_manager.py lines 248-253).  Modelled from the prompt text: the
tier policy lives only in that prompt, the code delegates its application
to the language model. -/
def tierFracBuy (c : ℚ) : ℚ :=
  if 90 < c then 1
  else if 80 ≤ c then 3/4
  else if 70 ≤ c then 1/2
  else if 60 ≤ c then 1/4
  else 0

/-- Size fraction for selling an existing position by confidence band,
from the decision prompt (portfolio_manager.py lines 255-260). -/
def tierFracSellLong (c : ℚ) : ℚ :=
  if 95 < c then 1
  else if 90 ≤ c then 3/4
  else if 80 ≤ c then 1/2
  else if 70 ≤ c then 1/4
  else 0

/-- Size fraction for a new short position by confidence band, from the
decision prompt (portfolio_manager.py lines 262-267). -/
def tierFracShort (c : ℚ) : ℚ :=
  if 95 < c then 1
  else if 90 ≤ c then 3/4
  else if 85 ≤ c then 1/2
  else if 80 ≤ c then 1/4
  else 0

/-- The decision policy stated in the prompt of generate_trading_decision
(portfolio_manager.py lines 243-280): sells of an existing position need
70 percent bearish confidence, new shorts need 80 percent bearish
confidence, new longs need 60 percent bullish confidence, otherwise hold.
Quantities are the tier fraction of the relevant base, floored to whole
shares. -/
def decideAction (direction : String) (confidence : ℚ)
    (current_shares max_shares : ℤ) : String × ℤ :=
  if direction = "bearish" ∧ 0 < current_shares ∧ 70 ≤ confidence then
    ("sell", ⌊tierFracSellLong confidence * (current_shares : ℚ)⌋)
  else if direction = "bearish" ∧ current_shares = 0 ∧ 80 ≤ confidence then
    ("sell", ⌊tierFracShort confidence * (max_shares : ℚ)⌋)
  else if direction = "bullish" ∧ 60 ≤ confidence then
    ("buy", ⌊tierFracBuy confidence * (max_shares : ℚ)⌋)
  else ("hold", 0)

/-- An Alpaca order dictionary as built by generate_trading_decision
(portfolio_manager.py lines 321-334). -/
structure Order where
  type : String
  symbol : String
  qty : ℤ
  side : String
  time_in_force : String
  limit_price : Option ℚ
  deriving DecidableEq

/-- Round half to even on integers reached from a rational, the tie rule
of the Python round builtin. -/
def rndHalfEven (q : ℚ) : ℤ :=
  if q - ⌊q⌋ < 1/2 then ⌊q⌋
  else if 1/2 < q - ⌊q⌋ then ⌊q⌋ + 1
  else if Even ⌊q⌋ then ⌊q⌋ else ⌊q⌋ + 1

/-- Model of the Python round(x, 2) call on an exact value. -/
def pyRound2 (q : ℚ) : ℚ := (rndHalfEven (q * 100) : ℚ) / 100

/-- The order attachment step of generate_trading_decision run when
execute_trades is true (portfolio_manager.py lines 309-338): market order
at confidence at least 80, otherwise a day limit order priced one percent
inside the current price; no order for hold or non-positive quantity. -/
def attachOrder (ticker action : String) (quantity : ℤ)
    (confidence current_price : ℚ) : Option Order :=
  if (action = "buy" ∨ action = "sell") ∧ 0 < quantity then
    let order_type := if 80 ≤ confidence then "market" else "limit"
    some { type := order_type
           symbol := ticker
           qty := quantity
           side := action
           time_in_force := "day"
           limit_price :=
             if order_type = "limit" then
               some (if action = "buy" then pyRound2 (current_price * (99/100))
                     else pyRound2 (current_price * (101/100)))
             else none }
  else none

/-- Per-ticker outcome recorded by execution_agent. -/
inductive ExecResult where
  | success (order_id : String) (filled_qty : ℚ) (filled_avg_price : ℚ)
  | failed (error : String)
  deriving DecidableEq

/-- The fields of a trading decision read by execution_agent. -/
structure TradeDecision where
  action : String
  order : Option Order
  deriving DecidableEq

/-- Assignment into a Python dictionary kept as an insertion-ordered
association list: overwrite in place when the key exists, append
otherwise. -/
def setResult (m : List (String × ExecResult)) (t : String) (r : ExecResult) :
    List (String × ExecResult) :=
  if m.any (fun p => p.1 = t) then m.map (fun p => if p.1 = t then (t, r) else p)
  else m ++ [(t, r)]

/-- The per-ticker loop of execution_agent (execution_agent.py lines
21-65).  The broker argument models trading_client.submit_order: a normal
return or a raised exception carrying its message.  A ticker with no
order or a hold action is skipped; a broker exception is caught locally,
recorded as a failed result, and the loop continues. -/
def executionLoop (broker : Order → Except String (String × ℚ × ℚ)) :
    List (String × TradeDecision) → List (String × ExecResult) →
    List (String × ExecResult)
  | [], results => results
  | (ticker, d) :: rest, results =>
    match d.order with
    | none => executionLoop broker rest results
    | some o =>
      if d.action = "hold" then executionLoop broker rest results
      else
        match broker o with
        | .ok (oid, fq, fap) =>
          executionLoop broker rest
            (setResult results ticker (.success oid fq fap))
        | .error e =>
          executionLoop broker rest (setResult results ticker (.failed e))

/-- The function execution_agent of execution_agent.py restricted to its
decision-processing core: the execution_results dictionary built from the
decisions map. -/
def execution_agent (broker : Order → Except String (String × ℚ × ℚ))
    (decisions : List (String × TradeDecision)) : List (String × ExecResult) :=
  executionLoop broker decisions []

/-- Expected per-ticker outcome used to state failure isolation: the
result the loop should record for one ticker, independent of every other
ticker. -/
def perTickerResult (broker : Order → Except String (String × ℚ × ℚ))
    (p : String × TradeDecision) : Option (String × ExecResult) :=
  match p.2.order with
  | none => none
  | some o =>
    if p.2.action = "hold" then none
    else
      match broker o with
      | .ok (oid, fq, fap) => some (p.1, .success oid fq fap)
      | .error e => some (p.1, .failed e)

/-- The slice of the backtester portfolio state touched by execute_trade
for one ticker: cash, the share count, the cost basis and the realized
gains of that ticker. -/
structure TickerState where
  cash : ℚ
  shares : ℚ
  cost_basis : ℚ
  realized_gains : ℚ
  deriving DecidableEq

/-- Python floor division on floats; none models the ZeroDivisionError. -/
def floordivQ (a b : ℚ) : Option ℚ :=
  if b = 0 then none else some (⌊a / b⌋ : ℚ)

/-- The method Backtester.execute_trade (backtester.py lines 222-275):
validate and execute one trade against the portfolio constraints,
returning the new state and the executed quantity. -/
def execute_trade (action : String) (quantity current_price : ℚ)
    (s : TickerState) : Option (TickerState × ℚ) :=
  if action = "buy" ∧ 0 < quantity then
    let cost := quantity * current_price
    if cost ≤ s.cash then
      let total_shares := s.shares + quantity
      let cb :=
        if 0 < total_shares then
          (s.cost_basis * s.shares + cost * quantity) / total_shares
        else s.cost_basis
      some ({ cash := s.cash - cost, shares := s.shares + quantity,
              cost_basis := cb, realized_gains := s.realized_gains }, quantity)
    else
      match floordivQ s.cash current_price with
      | none => none
      | some max_quantity =>
        if 0 < max_quantity then
          let new_cost := max_quantity * current_price
          let total_shares := s.shares + max_quantity
          let cb :=
            if 0 < total_shares then
              (s.cost_basis * s.shares + new_cost * max_quantity) / total_shares
            else s.cost_basis
          some ({ cash := s.cash - new_cost, shares := s.shares + max_quantity,
                  cost_basis := cb, realized_gains := s.realized_gains },
                max_quantity)
        else some (s, 0)
  else if action = "sell" ∧ 0 < quantity then
    let q := min quantity s.shares
    if 0 < q then
      let avg_cost := if 0 < s.shares then s.cost_basis / s.shares else 0
      let realized := (current_price - avg_cost) * q
      let shares2 := s.shares - q
      let cb := if 0 < shares2 then s.cost_basis * ((shares2 - q) / shares2) else 0
      some ({ cash := s.cash + q * current_price, shares := shares2,
              cost_basis := cb, realized_gains := s.realized_gains + realized }, q)
    else some (s, 0)
  else some (s, 0)

/-- Demonstration broker used to instantiate the failure-isolation
theorem: it rejects the symbol BBB with an exception message and fills
every other order. -/
def demoBroker (o : Order) : Except String (String × ℚ × ℚ) :=
  if o.symbol = "BBB" then .error "insufficient buying power"
  else .ok (String.append "id-" o.symbol, 5, 10)

/-- Three non-hold decisions used to instantiate the failure-isolation
theorem, the middle one aimed at the rejected symbol. -/
def demoDecisions : List (String × TradeDecision) :=
  [("AAA", ⟨"buy", some ⟨"market", "AAA", 5, "buy", "day", none⟩⟩),
   ("BBB", ⟨"buy", some ⟨"market", "BBB", 5, "buy", "day", none⟩⟩),
   ("CCC", ⟨"sell", some ⟨"market", "CCC", 5, "sell", "day", none⟩⟩)]

/-- Total version of the confidence parse, used to state sums: the parsed
value where the parse succeeds and 0 where it raises. -/
def parsedConf (c : Conf) : ℚ :=
  match parseConf c with
  | .ok q => q
  | .error _ => 0

/-- The weighted bullish total of a signal list as a plain sum, used to
characterize the first component returned by processSignals. -/
def bullishSum (w : String → ℚ) : List (String × SignalData) → ℚ
  | [] => 0
  | (k, sd) :: rest =>
    (if pyUpper sd.signal = "BULLISH" then parsedConf sd.confidence * w (normKey k) else 0)
      + bullishSum w rest

/-- Claim C10: aggregation of an empty signal bundle is total and returns
confidence 0 and direction bullish, with no division by zero: the
participation scale-down is skipped because active equals available
equals 0, and the weight table falls back to the base weights because the
summed weight of present producers is 0. -/
theorem aggregate_empty_total :
    calculate_signal_confidence [] = .ok (0, "bullish") := rfl

/-- Claim C5: aggregation is claimed never to raise on unparsable
confidence values.  The handler catches only ValueError and
AttributeError, so a None confidence makes float raise an uncaught
TypeError and the whole aggregation raises, while a non-numeric string
such as "high" is caught and treated as confidence 0.  The first
conjunct exhibits the raising input; the second shows the string case
behaving as the claim says. -/
theorem aggregate_none_confidence_raises :
    calculate_signal_confidence [("fundamentals", ⟨"BULLISH", Conf.pynone⟩)]
        = .error () ∧
      calculate_signal_confidence [("fundamentals", ⟨"BULLISH", Conf.str "high"⟩)]
        = .ok (0, "bullish") := by
  constructor
  · rfl
  · have h1 : pyLower "fundamentals" = "fundamentals" := by decide
    have h2 : normKey "fundamentals" = "fundamentals" := by decide
    have h3 : normTW "fundamentals" = "fundamentals" := by decide
    have h4 : pyUpper "BULLISH" = "BULLISH" := by decide
    have h5 : parseFloat "high" = none := by decide
    simp [calculate_signal_confidence, activeAgents, totalWeight, processSignals,
      parseConf, weightFor, h1, h2, h3, h4, h5, baseWeights]

/-- Claim C3, counterexample: the prompt policy requires 80 percent
bearish confidence to open a short, so at confidence 75 with no position
the decision is hold with quantity 0, not the sell of 25 percent of
max_shares (25 shares of 100) the claim asserts for the 70 to 80 band. -/
theorem decideAction_short_counterexample :
    decideAction "bearish" 75 0 100 = ("hold", 0) ∧
      decideAction "bearish" 75 0 100 ≠ ("sell", 25) := by
  have h : decideAction "bearish" 75 0 100 = ("hold", 0) := by
    unfold decideAction
    simp only [show ("bearish" = "bullish") = False from by decide,
      show ("bearish" = "bearish") = True from by decide, false_and, true_and, if_false]
    norm_num
  refine ⟨h, ?_⟩
  rw [h]
  intro hcon
  exact absurd (congrArg Prod.fst hcon) (by decide)

/-- Claim C3 as amended: with no current position and bearish direction,
the prompt policy holds below 80 percent confidence and opens a short at
80 percent and above, sized 25, 50, 75 or 100 percent of max_shares on
the bands 80 to 85, 85 to 90, 90 to 95 and above 95. -/
theorem decideAction_short_policy (c : ℚ) (m : ℤ) :
    (c < 80 → decideAction "bearish" c 0 m = ("hold", 0)) ∧
      (80 ≤ c → c < 85 → decideAction "bearish" c 0 m = ("sell", ⌊(1/4 : ℚ) * m⌋)) ∧
      (85 ≤ c → c < 90 → decideAction "bearish" c 0 m = ("sell", ⌊(1/2 : ℚ) * m⌋)) ∧
      (90 ≤ c → c ≤ 95 → decideAction "bearish" c 0 m = ("sell", ⌊(3/4 : ℚ) * m⌋)) ∧
      (95 < c → decideAction "bearish" c 0 m = ("sell", m)) := by
  unfold decideAction tierFracShort
  simp only [show ("bearish" = "bullish") = False from by decide,
    show ("bearish" = "bearish") = True from by decide,
    show (((0 : ℤ) < 0) = False) from by simp,
    show (((0 : ℤ) = 0) = True) from by simp,
    true_and, false_and, and_false, and_true, if_false, if_true]
  refine ⟨?_, ?_, ?_, ?_, ?_⟩ <;> intros <;> split_ifs <;>
    first
      | rfl
      | (exfalso; linarith)
      | (rw [one_mul, Int.floor_intCast])

/-- Witness for decideAction_short_policy at the confidence 65 input
named by the claim: the decision is hold with quantity 0. -/
theorem decideAction_short_policy_witness :
    decideAction "bearish" 65 0 100 = ("hold", 0) ∧
      decideAction "bearish" 87 0 200 = ("sell", 100) := by
  constructor
  · exact (decideAction_short_policy 65 100).1 (by norm_num)
  · have h := (decideAction_short_policy 87 200).2.2.1 (by norm_num) (by norm_num)
    rw [h]
    norm_num

/-- Claim C1, counterexample: with cash 100, a single position of cost
basis 1000 and price 200, the emitted remaining position limit is -780
and max_shares is the Python int truncation -3, not the floor -4 the
claim asserts for negative limits; moreover -3 times 200 exceeds -780,
so the no-overshoot inequality fails as well. -/
theorem risk_envelope_floor_counterexample :
    risk_envelope ⟨100, none, [("AAPL", 1000)]⟩ "AAPL" 200 false
        = (-780, 200, -3) ∧
      (⌊(-780 : ℚ) / 200⌋ : ℤ) = -4 ∧
      ¬ ((-3 : ℚ) * 200 ≤ -780) := by
  refine ⟨?_, by norm_num, by norm_num⟩
  have h : lookupQ [("AAPL", 1000)] "AAPL" = 1000 := by
    norm_num [lookupQ, List.find?]
  simp [risk_envelope, total_portfolio_value, h, truncQ]
  norm_num

/-- Claim C1 as amended: for positive price, max_shares is the truncation
toward zero of the emitted remaining position limit divided by price;
when that limit is nonnegative this coincides with the floor and
max_shares times price never exceeds the limit; for non-positive price
max_shares is 0. -/
theorem risk_envelope_max_shares (p : RiskPortfolio) (t : String) (price : ℚ)
    (live : Bool) (rem pr : ℚ) (ms : ℤ)
    (h : risk_envelope p t price live = (rem, pr, ms)) :
    (0 < price → ms = truncQ (rem / price) ∧
        (0 ≤ rem → ms = ⌊rem / price⌋ ∧ (ms : ℚ) * price ≤ rem)) ∧
      (price ≤ 0 → ms = 0) := by
  simp only [risk_envelope] at h
  rw [Prod.mk.injEq, Prod.mk.injEq] at h
  obtain ⟨h1, hpr, hms⟩ := h
  rw [h1] at hms
  constructor
  · intro hp
    rw [if_pos hp] at hms
    subst hms
    refine ⟨rfl, fun hrem => ?_⟩
    have hq : 0 ≤ rem / price := div_nonneg hrem (le_of_lt hp)
    rw [truncQ, if_pos hq]
    refine ⟨rfl, ?_⟩
    have hfl : (⌊rem / price⌋ : ℚ) ≤ rem / price := Int.floor_le _
    calc (⌊rem / price⌋ : ℚ) * price ≤ (rem / price) * price :=
          mul_le_mul_of_nonneg_right hfl (le_of_lt hp)
      _ = rem := div_mul_cancel₀ rem (ne_of_gt hp)
  · intro hp
    rw [if_neg (not_lt.mpr hp)] at hms
    exact hms.symm

/-- Witness for risk_envelope_max_shares on a plain portfolio: cash 1000,
no positions, price 10 in simulation mode gives limit 200 and max_shares
20, which is both the truncation and the floor, and 20 times 10 stays
within 200. -/
theorem risk_envelope_max_shares_witness :
    (0 < (10 : ℚ) → (20 : ℤ) = truncQ ((200 : ℚ) / 10) ∧
        (0 ≤ (200 : ℚ) → (20 : ℤ) = ⌊(200 : ℚ) / 10⌋ ∧ ((20 : ℤ) : ℚ) * 10 ≤ 200)) ∧
      ((10 : ℚ) ≤ 0 → (20 : ℤ) = 0) := by
  have h : risk_envelope ⟨1000, none, []⟩ "A" 10 false = (200, 10, 20) := by
    simp [risk_envelope, total_portfolio_value, lookupQ, truncQ]
    norm_num
  exact risk_envelope_max_shares ⟨1000, none, []⟩ "A" 10 false 200 10 20 h

/-- Claim C7: in live mode, a buy or sell decision with positive quantity
gets an order whose type is market exactly when confidence is at least 80
and limit exactly when below; the time in force is day, and a limit order
carries the one percent offset limit price, rounded to two decimals. -/
theorem attachOrder_type_rule (ticker action : String) (q : ℤ) (conf price : ℚ)
    (ha : action = "buy" ∨ action = "sell") (hq : 0 < q) :
    ∃ o, attachOrder ticker action q conf price = some o ∧
      (o.type = "market" ↔ 80 ≤ conf) ∧
      (o.type = "limit" ↔ conf < 80) ∧
      o.time_in_force = "day" ∧
      (conf < 80 →
        o.limit_price = some (if action = "buy" then pyRound2 (price * (99/100))
                              else pyRound2 (price * (101/100)))) := by
  unfold attachOrder
  rw [if_pos ⟨ha, hq⟩]
  by_cases hc : 80 ≤ conf
  · refine ⟨_, rfl, ?_⟩
    rw [if_pos hc]
    refine ⟨by simpa using hc, ?_, rfl, ?_⟩
    · simp only [show ("market" = "limit") = False from by simp]
      simpa using hc
    · intro hlt
      exact absurd hc (not_le.mpr hlt)
  · refine ⟨_, rfl, ?_⟩
    rw [if_neg hc]
    push_neg at hc
    refine ⟨?_, ?_, rfl, fun _ => ?_⟩
    · simp only [show ("limit" = "market") = False from by simp]
      simpa using not_le.mpr hc
    · simpa using hc
    · simp

/-- Witness for attachOrder_type_rule at the input named by the claim:
live-mode buy at confidence 75 and price 100 yields a day limit order at
price 99. -/
theorem attachOrder_type_rule_witness :
    (∃ o, attachOrder "AAPL" "buy" 10 75 100 = some o ∧
        (o.type = "market" ↔ (80 : ℚ) ≤ 75) ∧
        (o.type = "limit" ↔ (75 : ℚ) < 80) ∧
        o.time_in_force = "day" ∧
        ((75 : ℚ) < 80 →
          o.limit_price = some (if "buy" = "buy" then pyRound2 ((100 : ℚ) * (99/100))
                                else pyRound2 ((100 : ℚ) * (101/100))))) ∧
      pyRound2 ((100 : ℚ) * (99/100)) = 99 := by
  constructor
  · exact attachOrder_type_rule "AAPL" "buy" 10 75 100 (Or.inl rfl) (by norm_num)
  · rw [pyRound2, rndHalfEven]
    norm_num

lemma processSignals_neutral (w : String → ℚ) :
    ∀ xs : List (String × SignalData),
      (∀ p ∈ xs, pyUpper p.2.signal = "NEUTRAL") →
      (∀ p ∈ xs, p.2.confidence ≠ Conf.pynone) →
      processSignals w xs = .ok (0, 0, 0) := by
  intro xs
  induction xs with
  | nil => intro _ _; rfl
  | cons hd t ih =>
    intro hsig hconf
    obtain ⟨k, sd⟩ := hd
    have hdir : pyUpper sd.signal = "NEUTRAL" := hsig _ (List.mem_cons_self _ _)
    have hrec := ih (fun p hp => hsig p (List.mem_cons_of_mem _ hp))
      (fun p hp => hconf p (List.mem_cons_of_mem _ hp))
    have hc : sd.confidence ≠ Conf.pynone := hconf _ (List.mem_cons_self _ _)
    cases hcc : sd.confidence with
    | num q => simp [processSignals, hcc, parseConf, hrec, hdir]
    | str s => simp [processSignals, hcc, parseConf, hrec, hdir]
    | pynone => exact absurd hcc hc

/-- Claim C4: a non-empty bundle in which every present signal is neutral
aggregates to confidence 0 with direction bullish, and more generally an
exact tie between the weighted bullish and bearish totals resolves to
bullish. -/
theorem aggregate_all_neutral_bullish :
    (∀ signals : List (String × SignalData), signals ≠ [] →
        (∀ p ∈ signals, pyUpper p.2.signal = "NEUTRAL") →
        (∀ p ∈ signals, p.2.confidence ≠ Conf.pynone) →
        calculate_signal_confidence signals = .ok (0, "bullish")) ∧
      (∀ (signals : List (String × SignalData)) (b : ℚ) (act : ℕ),
        processSignals (weightFor (totalWeight (activeAgents signals)))
            (activeAgents signals) = .ok (b, b, act) →
        ∃ conf, calculate_signal_confidence signals = .ok (conf, "bullish")) := by
  constructor
  · intro signals _ hsig hconf
    have hps := processSignals_neutral
      (weightFor (totalWeight (activeAgents signals))) (activeAgents signals)
      (fun p hp => hsig p (List.mem_of_mem_filter hp))
      (fun p hp => hconf p (List.mem_of_mem_filter hp))
    simp only [calculate_signal_confidence]
    rw [hps]
    simp
  · intro signals b act h
    simp only [calculate_signal_confidence]
    rw [h]
    simp only [lt_self_iff_false, if_false]
    exact ⟨_, rfl⟩

/-- Witness for aggregate_all_neutral_bullish: a two-producer all-neutral
bundle aggregates to confidence 0 and direction bullish. -/
theorem aggregate_all_neutral_bullish_witness :
    calculate_signal_confidence
        [("fundamentals", ⟨"neutral", Conf.num 60⟩),
         ("sentiment", ⟨"NEUTRAL", Conf.num 80⟩)]
      = .ok (0, "bullish") :=
  aggregate_all_neutral_bullish.1 _ (by decide) (by decide) (by decide)

lemma baseWeights_cases (n : String) (v : ℚ) (h : baseWeights n = some v) :
    (n = "fundamentals" ∨ n = "technical_analysis" ∨ n = "valuation" ∨
        n = "warren_buffett" ∨ n = "sentiment") ∧ 0 < v := by
  unfold baseWeights at h
  split_ifs at h with h1 h2 h3 h4 h5 <;>
    (refine ⟨by tauto, ?_⟩
     obtain rfl := Option.some.inj h
     norm_num)

lemma aggregate_known_producer_facts (k : String) (w : ℚ)
    (hw : baseWeights (normTW k) = some w) :
    pyLower k ≠ "risk_management_agent" ∧ normKey k = normTW k ∧ 0 < w := by
  obtain ⟨hcase, hpos⟩ := baseWeights_cases _ _ hw
  refine ⟨?_, ?_, hpos⟩
  · intro hk
    have hnk : normTW k = "risk_management" := by
      unfold normTW
      rw [hk]
      decide
    rcases hcase with h | h | h | h | h <;> rw [hnk] at h <;> exact absurd h (by decide)
  · rcases hcase with h | h | h | h | h <;> (unfold normKey; rw [h]; decide)

/-- Claim C6: a bundle holding exactly one known producer with a
non-neutral direction and nonnegative numeric confidence C has one
active and one available signal, so the participation scale-down is a
no-op, the single weight renormalizes to 1, and the aggregated
confidence is exactly C. -/
theorem aggregate_single_producer (k d : String) (C w : ℚ)
    (hw : baseWeights (normTW k) = some w)
    (hd : pyUpper d = "BULLISH" ∨ pyUpper d = "BEARISH")
    (hC : 0 ≤ C) :
    (activeAgents [(k, ⟨d, Conf.num C⟩)]).length = 1 ∧
      processSignals (weightFor (totalWeight (activeAgents [(k, ⟨d, Conf.num C⟩)])))
          (activeAgents [(k, ⟨d, Conf.num C⟩)])
        = .ok (if pyUpper d = "BULLISH" then (C, 0, 1) else (0, C, 1)) ∧
      ∃ dir, calculate_signal_confidence [(k, ⟨d, Conf.num C⟩)] = .ok (C, dir) := by
  obtain ⟨hkl, hnk, hpos⟩ := aggregate_known_producer_facts k w hw
  have hAA : activeAgents [(k, (⟨d, Conf.num C⟩ : SignalData))]
      = [(k, (⟨d, Conf.num C⟩ : SignalData))] := by
    simp [activeAgents, hkl]
  have hTW : totalWeight [(k, (⟨d, Conf.num C⟩ : SignalData))] = w := by
    simp [totalWeight, hw]
  have hWF : weightFor w (normKey k) = 1 := by
    simp only [weightFor, hnk, hw]
    rw [if_pos hpos]
    exact div_self (ne_of_gt hpos)
  have hPS : processSignals (weightFor (totalWeight (activeAgents [(k, ⟨d, Conf.num C⟩)])))
      (activeAgents [(k, ⟨d, Conf.num C⟩)])
      = .ok (if pyUpper d = "BULLISH" then (C, 0, 1) else (0, C, 1)) := by
    rw [hAA, hTW]
    rcases hd with hdd | hdd
    · rw [if_pos hdd]
      simp [processSignals, parseConf, hdd, hWF]
    · have hne : pyUpper d ≠ "BULLISH" := by
        rw [hdd]; decide
      rw [if_neg hne]
      simp [processSignals, parseConf, hdd, hWF]
  refine ⟨by rw [hAA]; rfl, hPS, ?_⟩
  simp only [calculate_signal_confidence]
  rw [hPS, hAA]
  rcases hd with hdd | hdd
  · rw [if_pos hdd]
    simp only [List.length_cons, List.length_nil]
    rw [if_neg (not_lt.mpr hC)]
    simp
  · have hne : pyUpper d ≠ "BULLISH" := by
      rw [hdd]; decide
    rw [if_neg hne]
    simp only [List.length_cons, List.length_nil]
    by_cases h0 : (0 : ℚ) < C
    · rw [if_pos h0]
      simp
    · have hc0 : C = 0 := le_antisymm (not_lt.mp h0) hC
      rw [if_neg h0]
      subst hc0
      simp

/-- Witness for aggregate_single_producer: the producer fundamentals with
a bullish signal at confidence 85 aggregates to confidence 85. -/
theorem aggregate_single_producer_witness :
    ∃ dir, calculate_signal_confidence [("fundamentals", ⟨"bullish", Conf.num 85⟩)]
      = .ok (85, dir) :=
  (aggregate_single_producer "fundamentals" "bullish" 85 (24/100)
    (by rw [show normTW "fundamentals" = "fundamentals" from by decide]; simp [baseWeights])
    (Or.inl (by decide)) (by norm_num)).2.2

lemma processSignals_fst_eq_bullishSum (w : String → ℚ) :
    ∀ (xs : List (String × SignalData)) (b r : ℚ) (a : ℕ),
      processSignals w xs = .ok (b, r, a) → b = bullishSum w xs := by
  intro xs
  induction xs with
  | nil =>
    intro b r a h
    simp only [processSignals, Except.ok.injEq, Prod.mk.injEq] at h
    exact h.1.symm
  | cons hd t ih =>
    intro b r a h
    obtain ⟨k, sd⟩ := hd
    simp only [processSignals] at h
    cases hcc : parseConf sd.confidence with
    | error e => rw [hcc] at h; exact absurd h (by simp)
    | ok c =>
      rw [hcc] at h
      cases hrec : processSignals w t with
      | error e => rw [hrec] at h; exact absurd h (by simp)
      | ok triple =>
        obtain ⟨b0, r0, a0⟩ := triple
        rw [hrec] at h
        simp only [] at h
        have hb0 := ih b0 r0 a0 hrec
        have hparsed : parsedConf sd.confidence = c := by
          simp [parsedConf, hcc]
        simp only [bullishSum, hparsed]
        by_cases hcond : pyUpper sd.signal ≠ "" ∧ pyUpper sd.signal ≠ "NEUTRAL"
        · rw [if_pos hcond] at h
          by_cases hbull : pyUpper sd.signal = "BULLISH"
          · rw [if_pos hbull, Except.ok.injEq, Prod.mk.injEq] at h
            rw [if_pos hbull, ← h.1, hb0]
            ring
          · rw [if_neg hbull] at h
            rw [if_neg hbull]
            by_cases hbear : pyUpper sd.signal = "BEARISH"
            · rw [if_pos hbear, Except.ok.injEq, Prod.mk.injEq] at h
              rw [← h.1, hb0, zero_add]
            · rw [if_neg hbear, Except.ok.injEq, Prod.mk.injEq] at h
              rw [← h.1, hb0, zero_add]
        · rw [if_neg hcond] at h
          have hnotbull : pyUpper sd.signal ≠ "BULLISH" := by
            intro hb
            exact hcond ⟨by rw [hb]; decide, by rw [hb]; decide⟩
          rw [Except.ok.injEq, Prod.mk.injEq] at h
          rw [if_neg hnotbull, ← h.1, hb0, zero_add]

lemma bullishSum_append (w : String → ℚ) (xs ys : List (String × SignalData)) :
    bullishSum w (xs ++ ys) = bullishSum w xs + bullishSum w ys := by
  induction xs with
  | nil => simp [bullishSum]
  | cons hd t ih =>
    obtain ⟨k, sd⟩ := hd
    simp only [List.cons_append, bullishSum]
    rw [show bullishSum w (List.append t ys) = bullishSum w (t ++ ys) from rfl, ih]
    ring

lemma activeAgents_append (xs ys : List (String × SignalData)) :
    activeAgents (xs ++ ys) = activeAgents xs ++ activeAgents ys := by
  simp [activeAgents, List.filter_append]

lemma baseWeights_nonneg (n : String) (v : ℚ) (h : baseWeights n = some v) : 0 ≤ v :=
  le_of_lt (baseWeights_cases n v h).2

lemma totalWeight_nonneg (xs : List (String × SignalData)) : 0 ≤ totalWeight xs := by
  unfold totalWeight
  apply List.sum_nonneg
  intro q hq
  rw [List.mem_filterMap] at hq
  obtain ⟨p, _, hp⟩ := hq
  exact baseWeights_nonneg _ _ hp

lemma weightFor_nonneg (tw : ℚ) (n : String) (htw : 0 ≤ tw) : 0 ≤ weightFor tw n := by
  unfold weightFor
  cases hb : baseWeights n with
  | none => exact le_refl 0
  | some v =>
    have hv := baseWeights_nonneg _ _ hb
    show 0 ≤ if 0 < tw then v / tw else v
    by_cases hp : 0 < tw
    · rw [if_pos hp]
      exact div_nonneg hv htw
    · rw [if_neg hp]
      exact hv

lemma totalWeight_eq_of_keys :
    ∀ s₁ s₂ : List (String × SignalData), s₁.map Prod.fst = s₂.map Prod.fst →
      totalWeight (activeAgents s₁) = totalWeight (activeAgents s₂) := by
  intro s₁
  induction s₁ with
  | nil =>
    intro s₂ h
    have : s₂ = [] := by
      cases s₂ with
      | nil => rfl
      | cons a t => simp at h
    subst this
    rfl
  | cons hd t ih =>
    intro s₂ h
    cases s₂ with
    | nil => simp at h
    | cons hd₂ t₂ =>
      simp only [List.map_cons, List.cons.injEq] at h
      obtain ⟨hk, ht⟩ := h
      have hrec := ih t₂ ht
      by_cases hp : pyLower hd.1 ≠ "risk_management_agent"
      · have hp₂ : pyLower hd₂.1 ≠ "risk_management_agent" := by rw [← hk]; exact hp
        simp only [activeAgents, List.filter_cons] at hrec ⊢
        rw [if_pos (by simpa using hp), if_pos (by simpa using hp₂)]
        simp only [totalWeight, List.filterMap_cons] at hrec ⊢
        cases hb : baseWeights (normTW hd.1) with
        | none =>
          have hb₂ : baseWeights (normTW hd₂.1) = none := by rw [← hk]; exact hb
          simp only [hb, hb₂]
          exact hrec
        | some v =>
          have hb₂ : baseWeights (normTW hd₂.1) = some v := by rw [← hk]; exact hb
          simp only [hb, hb₂, List.sum_cons]
          exact congrArg (fun x => v + x) hrec
      · push_neg at hp
        have hp₂ : pyLower hd₂.1 = "risk_management_agent" := by rw [← hk]; exact hp
        simp only [activeAgents, List.filter_cons] at hrec ⊢
        rw [if_neg (by simp [hp]), if_neg (by simp [hp₂])]
        exact hrec

/-- Claim C9: raising the numeric confidence of one bullish signal, with
every other signal and the producer set unchanged, never decreases the
weighted bullish total computed by the aggregation loop, because every
effective weight is nonnegative. -/
theorem aggregate_bullish_monotone
    (pre post : List (String × SignalData)) (k d : String) (c₁ c₂ : ℚ)
    (hd : pyUpper d = "BULLISH") (hc : c₁ ≤ c₂)
    (b₁ r₁ : ℚ) (a₁ : ℕ) (b₂ r₂ : ℚ) (a₂ : ℕ)
    (h₁ : processSignals
        (weightFor (totalWeight (activeAgents (pre ++ (k, ⟨d, Conf.num c₁⟩) :: post))))
        (activeAgents (pre ++ (k, ⟨d, Conf.num c₁⟩) :: post)) = .ok (b₁, r₁, a₁))
    (h₂ : processSignals
        (weightFor (totalWeight (activeAgents (pre ++ (k, ⟨d, Conf.num c₂⟩) :: post))))
        (activeAgents (pre ++ (k, ⟨d, Conf.num c₂⟩) :: post)) = .ok (b₂, r₂, a₂)) :
    b₁ ≤ b₂ := by
  have hkeys : (pre ++ (k, (⟨d, Conf.num c₁⟩ : SignalData)) :: post).map Prod.fst
      = (pre ++ (k, (⟨d, Conf.num c₂⟩ : SignalData)) :: post).map Prod.fst := by
    simp
  have htw := totalWeight_eq_of_keys _ _ hkeys
  rw [← htw] at h₂
  set w := weightFor (totalWeight (activeAgents
    (pre ++ (k, (⟨d, Conf.num c₁⟩ : SignalData)) :: post))) with hwdef
  have e₁ := processSignals_fst_eq_bullishSum w _ _ _ _ h₁
  have e₂ := processSignals_fst_eq_bullishSum w _ _ _ _ h₂
  rw [e₁, e₂]
  have hsplit : ∀ c : ℚ,
      activeAgents (pre ++ (k, (⟨d, Conf.num c⟩ : SignalData)) :: post)
        = activeAgents pre ++ (activeAgents [(k, ⟨d, Conf.num c⟩)] ++ activeAgents post) := by
    intro c
    rw [show (k, (⟨d, Conf.num c⟩ : SignalData)) :: post
      = [(k, (⟨d, Conf.num c⟩ : SignalData))] ++ post from rfl]
    rw [activeAgents_append, activeAgents_append]
  rw [hsplit c₁, hsplit c₂, bullishSum_append, bullishSum_append,
    bullishSum_append, bullishSum_append]
  have hw0 : 0 ≤ w (normKey k) := weightFor_nonneg _ _ (totalWeight_nonneg _)
  have hmid : bullishSum w (activeAgents [(k, (⟨d, Conf.num c₁⟩ : SignalData))])
      ≤ bullishSum w (activeAgents [(k, (⟨d, Conf.num c₂⟩ : SignalData))]) := by
    by_cases hp : pyLower k ≠ "risk_management_agent"
    · have hone : ∀ c : ℚ, activeAgents [(k, (⟨d, Conf.num c⟩ : SignalData))]
          = [(k, (⟨d, Conf.num c⟩ : SignalData))] := by
        intro c
        simp [activeAgents, hp]
      rw [hone c₁, hone c₂]
      simp only [bullishSum, hd, if_pos, parsedConf, parseConf, add_zero]
      exact mul_le_mul_of_nonneg_right hc hw0
    · push_neg at hp
      have hnone : ∀ c : ℚ, activeAgents [(k, (⟨d, Conf.num c⟩ : SignalData))]
          = [] := by
        intro c
        simp [activeAgents, hp]
      rw [hnone c₁, hnone c₂]
  linarith

/-- Witness for aggregate_bullish_monotone: raising a lone bullish
fundamentals signal from confidence 50 to 60 raises the bullish total
from 50 to 60. -/
theorem aggregate_bullish_monotone_witness :
    processSignals (weightFor (totalWeight (activeAgents
        ([] ++ ("fundamentals", ⟨"bullish", Conf.num 50⟩) :: []))))
        (activeAgents ([] ++ ("fundamentals", ⟨"bullish", Conf.num 50⟩) :: []))
      = .ok (50, 0, 1) ∧
    processSignals (weightFor (totalWeight (activeAgents
        ([] ++ ("fundamentals", ⟨"bullish", Conf.num 60⟩) :: []))))
        (activeAgents ([] ++ ("fundamentals", ⟨"bullish", Conf.num 60⟩) :: []))
      = .ok (60, 0, 1) ∧
    (50 : ℚ) ≤ 60 := by
  have hw : baseWeights (normTW "fundamentals") = some (24/100) := by
    rw [show normTW "fundamentals" = "fundamentals" from by decide]
    simp [baseWeights]
  have h50 := (aggregate_single_producer "fundamentals" "bullish" 50 (24/100) hw
    (Or.inl (by decide)) (by norm_num)).2.1
  have h60 := (aggregate_single_producer "fundamentals" "bullish" 60 (24/100) hw
    (Or.inl (by decide)) (by norm_num)).2.1
  rw [if_pos (by decide)] at h50 h60
  refine ⟨by simpa using h50, by simpa using h60, ?_⟩
  exact aggregate_bullish_monotone [] [] "fundamentals" "bullish" 50 60 (by decide)
    (by norm_num) 50 0 1 60 0 1 (by simpa using h50) (by simpa using h60)

lemma setResult_notmem (m : List (String × ExecResult)) (t : String) (r : ExecResult)
    (h : ∀ p ∈ m, p.1 ≠ t) : setResult m t r = m ++ [(t, r)] := by
  unfold setResult
  rw [if_neg]
  simp only [List.any_eq_true, decide_eq_true_eq, not_exists]
  intro p hp
  exact h p hp.1 hp.2

lemma executionLoop_eq (broker : Order → Except String (String × ℚ × ℚ)) :
    ∀ (ds : List (String × TradeDecision)) (acc : List (String × ExecResult)),
      (∀ p ∈ acc, p.1 ∉ ds.map Prod.fst) →
      (ds.map Prod.fst).Nodup →
      executionLoop broker ds acc = acc ++ ds.filterMap (perTickerResult broker) := by
  intro ds
  induction ds with
  | nil =>
    intro acc _ _
    simp [executionLoop]
  | cons hd rest ih =>
    intro acc hdisj hnodup
    obtain ⟨t, d⟩ := hd
    have hnd2 : (rest.map Prod.fst).Nodup := (List.nodup_cons.mp (by simpa using hnodup)).2
    have ht : t ∉ rest.map Prod.fst := (List.nodup_cons.mp (by simpa using hnodup)).1
    have hdisj2 : ∀ p ∈ acc, p.1 ∉ rest.map Prod.fst := by
      intro p hp hm
      exact hdisj p hp (by simp [hm])
    have hne : ∀ p ∈ acc, p.1 ≠ t := by
      intro p hp he
      exact hdisj p hp (by simp [he])
    cases ho : d.order with
    | none =>
      simp only [executionLoop, ho]
      rw [ih acc hdisj2 hnd2]
      simp [List.filterMap_cons, perTickerResult, ho]
    | some o =>
      by_cases hh : d.action = "hold"
      · simp only [executionLoop, ho]
        rw [if_pos hh, ih acc hdisj2 hnd2]
        simp [List.filterMap_cons, perTickerResult, ho, hh]
      · simp only [executionLoop, ho]
        rw [if_neg hh]
        have hdisj3 : ∀ (r : ExecResult) (p : String × ExecResult),
            p ∈ acc ++ [(t, r)] → p.1 ∉ rest.map Prod.fst := by
          intro r p hp
          rcases List.mem_append.mp hp with hin | hin
          · exact hdisj2 p hin
          · simp only [List.mem_singleton] at hin
            subst hin
            exact ht
        cases hb : broker o with
        | ok f =>
          obtain ⟨oid, fq, fap⟩ := f
          simp only []
          rw [setResult_notmem acc t _ hne,
            ih (acc ++ [(t, ExecResult.success oid fq fap)]) (hdisj3 _) hnd2]
          simp [List.filterMap_cons, perTickerResult, ho, hh, hb]
        | error e =>
          simp only []
          rw [setResult_notmem acc t _ hne,
            ih (acc ++ [(t, ExecResult.failed e)]) (hdisj3 _) hnd2]
          simp [List.filterMap_cons, perTickerResult, ho, hh, hb]

/-- Claim C2: for decisions over distinct tickers, the execution loop
records for every non-hold ticker with an order exactly the outcome of
its own broker call: a success entry on a normal return and a failed
entry carrying the exception text on a raised exception, so one broker
rejection never aborts the remaining tickers. -/
theorem execution_agent_isolates (broker : Order → Except String (String × ℚ × ℚ))
    (decisions : List (String × TradeDecision))
    (h : (decisions.map Prod.fst).Nodup) :
    execution_agent broker decisions = decisions.filterMap (perTickerResult broker) := by
  unfold execution_agent
  rw [executionLoop_eq broker decisions [] (by simp) h]
  simp

/-- Witness for execution_agent_isolates: three tickers where the broker
rejects the second give three results, the second failed with the
exception text, the first and third successful. -/
theorem execution_agent_isolates_witness :
    execution_agent demoBroker demoDecisions =
      [("AAA", .success "id-AAA" 5 10),
       ("BBB", .failed "insufficient buying power"),
       ("CCC", .success "id-CCC" 5 10)] := by
  rw [execution_agent_isolates demoBroker demoDecisions (by decide)]
  decide

/-- Claim C8: from a state with positive price, nonnegative cash and a
nonnegative position, execute_trade always succeeds, keeps cash and the
position nonnegative, clips an unaffordable buy to the floor of cash
over price, and clamps a sell to the held share count so the position
cannot go negative. -/
theorem execute_trade_invariants (action : String) (qty price : ℚ) (s : TickerState)
    (hp : 0 < price) (hc : 0 ≤ s.cash) (hs : 0 ≤ s.shares) :
    ∃ s2 q, execute_trade action qty price s = some (s2, q) ∧
      0 ≤ s2.cash ∧ 0 ≤ s2.shares ∧
      (action = "buy" → 0 < qty → s.cash < qty * price → q = (⌊s.cash / price⌋ : ℚ)) ∧
      (action = "sell" → 0 < qty →
        q = min qty s.shares ∧ s2.shares = s.shares - q) := by
  have hpne : price ≠ 0 := ne_of_gt hp
  unfold execute_trade
  by_cases hbuy : action = "buy" ∧ 0 < qty
  · rw [if_pos hbuy]
    have hnotsell : action ≠ "sell" := by
      rw [hbuy.1]
      decide
    by_cases haff : qty * price ≤ s.cash
    · rw [if_pos haff]
      dsimp only
      refine ⟨_, _, rfl, ?_, ?_, ?_, ?_⟩
      · linarith
      · linarith [hbuy.2]
      · intro _ _ hover
        exfalso
        linarith
      · intro hsl
        exact absurd hsl hnotsell
    · rw [if_neg haff]
      have hfd : floordivQ s.cash price = some (⌊s.cash / price⌋ : ℚ) := by
        simp [floordivQ, hpne]
      rw [hfd]
      simp only []
      have hmq0 : (0 : ℚ) ≤ (⌊s.cash / price⌋ : ℚ) := by
        have : (0 : ℤ) ≤ ⌊s.cash / price⌋ :=
          Int.floor_nonneg.mpr (div_nonneg hc hp.le)
        exact_mod_cast this
      by_cases hpos : (0 : ℚ) < (⌊s.cash / price⌋ : ℚ)
      · rw [if_pos hpos]
        have hle : (⌊s.cash / price⌋ : ℚ) * price ≤ s.cash := by
          calc (⌊s.cash / price⌋ : ℚ) * price
              ≤ (s.cash / price) * price :=
                mul_le_mul_of_nonneg_right (Int.floor_le _) hp.le
            _ = s.cash := div_mul_cancel₀ _ hpne
        refine ⟨_, _, rfl, ?_, ?_, fun _ _ _ => rfl, fun hsl => absurd hsl hnotsell⟩
        · linarith
        · linarith
      · rw [if_neg hpos]
        have hz : (⌊s.cash / price⌋ : ℚ) = 0 := le_antisymm (not_lt.mp hpos) hmq0
        exact ⟨s, 0, rfl, hc, hs, fun _ _ _ => hz.symm,
          fun hsl => absurd hsl hnotsell⟩
  · rw [if_neg hbuy]
    by_cases hsell : action = "sell" ∧ 0 < qty
    · rw [if_pos hsell]
      have hnotbuy : action ≠ "buy" := by
        rw [hsell.1]
        decide
      dsimp only
      by_cases hq : 0 < min qty s.shares
      · rw [if_pos hq]
        refine ⟨_, _, rfl, ?_, ?_, fun hb => absurd hb hnotbuy, fun _ _ => ⟨rfl, rfl⟩⟩
        · have : 0 ≤ min qty s.shares * price := mul_nonneg hq.le hp.le
          linarith
        · have : min qty s.shares ≤ s.shares := min_le_right _ _
          linarith
      · rw [if_neg hq]
        have hq0 : min qty s.shares = 0 :=
          le_antisymm (not_lt.mp hq) (le_min hsell.2.le hs)
        refine ⟨s, 0, rfl, hc, hs, fun hb => absurd hb hnotbuy, fun _ _ => ⟨hq0.symm, ?_⟩⟩
        rw [sub_zero]
    · rw [if_neg hsell]
      exact ⟨s, 0, rfl, hc, hs,
        fun hb hqty _ => absurd ⟨hb, hqty⟩ hbuy,
        fun hsl hqty => absurd ⟨hsl, hqty⟩ hsell⟩

/-- Witness for execute_trade_invariants: buying 100 shares at price 3
with only 10 cash clips the fill to 3 shares, the floor of 10 over 3,
leaving cash 1; the invariants hold at this concrete input. -/
theorem execute_trade_invariants_witness :
    (∃ s2 q, execute_trade "buy" 100 3 ⟨10, 0, 0, 0⟩ = some (s2, q) ∧
        0 ≤ s2.cash ∧ 0 ≤ s2.shares ∧
        ("buy" = "buy" → (0 : ℚ) < 100 → (10 : ℚ) < 100 * 3 →
          q = (⌊(10 : ℚ) / 3⌋ : ℚ)) ∧
        ("buy" = "sell" → (0 : ℚ) < 100 →
          q = min 100 (0 : ℚ) ∧ s2.shares = 0 - q)) ∧
      execute_trade "buy" 100 3 ⟨10, 0, 0, 0⟩ = some (⟨1, 3, 9, 0⟩, 3) := by
  constructor
  · have h := execute_trade_invariants "buy" 100 3 ⟨10, 0, 0, 0⟩
      (by norm_num) (by norm_num) (by norm_num)
    simpa using h
  · have h3 : (⌊(10 : ℚ) / 3⌋ : ℤ) = 3 := by norm_num
    simp only [execute_trade, floordivQ]
    norm_num [h3]
